import Mathlib

/-!
# Verification of the `judgers` allocation-and-scoring core

A shallow embedding of `judgers-core` (Rust) in Lean 4, together with proofs
about its allocation strategies (`RandomFairAllocator`, `SequenceFairAllocator`,
`PresentationAllocator`), its scoring engine (`ScoreTable`, `StackRankScorer`)
and its `Time` utility.

Modelling conventions:
 - Rust `Vec<T>` becomes `List T`; `String` stays `String`.
 - Rust machine integers (`u32`, `u8`, `usize`) become `Nat`; none of the
   verified operations can overflow for realistically sized inputs.
 - `f64` scores become `Rat`.  The floating point values appearing in the
   scoring engine are sums/quotients of user-supplied weights; modelling them
   as exact rationals keeps the structural behaviour (which entries are
   emitted, how lists are ordered) identical and makes NaN unrepresentable.
 - `HashMap` becomes an association list (first-match lookup); the code never
   relies on hash-iteration order.
 - The process-global random source used by `RandomFairAllocator`
   (`rand::rng().random_range(0..n)`) becomes an explicit stream
   `σ : Nat → Nat` of draws; draw number `t` in a range `0..n` is `σ t % n`.
   The rejection-sampling `while` loop becomes a fuel-indexed recursion
   returning `none` when the fuel runs out, so that `allocate` returning
   `some r` for some fuel models termination of the Rust loop.
 - Rust `Result<T, Error>` becomes `Except Error T`.
-/

/-- Error enum from `error.rs` (the variants the verified code can produce). -/
inductive Error where
  | ErrNotEnoughJudges (judge_count : Nat) (project_count : Nat) (judge_amount_min : Nat)
  | ErrNoJudges
  | ErrNoProjects
  | ErrNoRankWeights
  | ErrInvalidTime
deriving DecidableEq, Repr

/-- Output format enum from `format.rs`. -/
inductive Format where
  | Json
  | Xlsx
deriving DecidableEq, Repr

/-- `Judge` from `judge.rs`: `{ id, name }`; `PartialEq` compares both fields. -/
structure Judge where
  id : String
  name : String
deriving DecidableEq, Repr

/-- `Project` from `project.rs`: `{ id, name, table_number }`. -/
structure Project where
  id : String
  name : String
  table_number : Option Nat
deriving DecidableEq, Repr

/-- The `PartialEq` instance of `Project` in `project.rs` compares only
`id` and `name`, ignoring `table_number`.  `Vec::contains` on projects uses
this equivalence, so we embed it explicitly. -/
def projEq (a b : Project) : Bool :=
  a.id == b.id && a.name == b.name

/-- `Vec::contains(&project)` on a project list, under `Project`'s
field-wise (`id`, `name`) equality. -/
def projMem (p : Project) (l : List Project) : Bool :=
  l.any fun q => projEq q p

/-- `AllocationConfig` from `allocate.rs`. -/
structure AllocationConfig where
  judge_amount_min : Nat
  judge_time : Nat
  format : Format
  output_path : Option String
deriving DecidableEq, Repr

/-- `Allocation` from `allocate.rs`: one judge and the projects assigned to it. -/
structure Allocation where
  judge : Judge
  projects : List Project
deriving DecidableEq, Repr

/-- `Allocations` from `allocate.rs`: one `Allocation` per judge. -/
structure Allocations where
  allocations : List Allocation
deriving DecidableEq, Repr

/-- Number of allocations whose project list contains `p`
(under the code's `contains`). -/
def countContaining (p : Project) (allocs : List Allocation) : Nat :=
  (allocs.filter fun a => projMem p a.projects).length

/-! ## Time utility (`time.rs`) -/

/-- `Time` from `time.rs`: hour/minute (stored as `u8` in Rust). -/
structure Time where
  hour : Nat
  minute : Nat
deriving DecidableEq, Repr

namespace Time

/-- `Time::new`: rejects `hour ≥ 24` or `minute ≥ 60` with the invalid-time
error (`time.rs` names it `Error::InvalidTime`; the enum in `error.rs`
declares the variant as `ErrInvalidTime`). -/
def new (hour minute : Nat) : Except Error Time :=
  if hour < 24 && minute < 60 then .ok ⟨hour, minute⟩ else .error .ErrInvalidTime

/-- `Time::to_minutes`: total minutes since midnight. -/
def to_minutes (t : Time) : Nat :=
  t.hour * 60 + t.minute

/-- `Time::from_minutes`: wraps modulo 24h. -/
def from_minutes (total : Nat) : Time :=
  ⟨(total / 60) % 24, total % 60⟩

end Time

/-! ## Presentation allocator (`allocate.rs`, `PresentationAllocator`) -/

namespace PresentationAllocator

/-- `PresentationAllocator::allocate`: builds one empty allocation per judge,
then assigns the complete project list to each; never fails and never reads
the config. -/
def allocate (_config : AllocationConfig) (judges : List Judge)
    (projects : List Project) : Except Error Allocations :=
  let allocations := judges.map fun judge => Allocation.mk judge []
  .ok ⟨allocations.map fun a => { a with projects := projects }⟩

end PresentationAllocator

/-! ## Sequence allocator (`allocate.rs`, `SequenceFairAllocator`) -/

namespace SequenceFairAllocator

/-- Exact ceiling division on naturals.  The Rust code computes
`((num_projects * judges_per_project) as f64 / num_judges as f64).ceil() as usize`;
for all inputs whose product fits the 53-bit mantissa (far beyond realistic
sizes) this equals the exact rational ceiling embedded here. -/
def ceilDiv (a b : Nat) : Nat :=
  (a + b - 1) / b

/-- The inner loop of `SequenceFairAllocator::allocate` for one judge:
`for j in 0..projects_per_judge { let idx = (start_offset + j) % num_projects;
if j < num_projects { push(projects[idx]) } }`. -/
def judgeProjects (projects : List Project) (num_projects start_offset projects_per_judge : Nat) :
    List Project :=
  (List.range projects_per_judge).foldl
    (fun acc j =>
      if j < num_projects then
        acc ++ [projects.getD ((start_offset + j) % num_projects) ⟨"", "", none⟩]
      else acc)
    []

/-- `SequenceFairAllocator::allocate` from `allocate.rs`. -/
def allocate (config : AllocationConfig) (judges : List Judge)
    (projects : List Project) : Except Error Allocations :=
  if judges.isEmpty then .error .ErrNoJudges
  else if projects.isEmpty then .error .ErrNoProjects
  else if judges.length < config.judge_amount_min then
    .error (.ErrNotEnoughJudges judges.length projects.length config.judge_amount_min)
  else
    let num_judges := judges.length
    let num_projects := projects.length
    let projects_per_judge := ceilDiv (num_projects * config.judge_amount_min) num_judges
    .ok ⟨judges.enum.map fun ij =>
      Allocation.mk ij.2
        (judgeProjects projects num_projects (ij.1 * num_projects / num_judges)
          projects_per_judge)⟩

end SequenceFairAllocator
/-! ## Random allocator (`allocate.rs`, `RandomFairAllocator`)

The `while judges_allocated < judge_amount_min` rejection-sampling loop is
embedded as `drawLoop`, a recursion over explicit fuel; the random source is
an explicit stream `σ` of draws, the `t`-th draw from `0..n` being `σ t % n`.
`drawLoop` returning `some` for some fuel models a terminating run of the
Rust loop with that stream; `none` for every fuel models divergence. -/

namespace RandomFairAllocator

/-- The rejection-sampling loop body for one project `p`:
draw a judge index, retry (`continue`) if that judge already has `p`,
otherwise push `p` and increment the counter, until it reaches `k`. -/
def drawLoop (σ : Nat → Nat) (p : Project) (k : Nat) :
    Nat → List Allocation → Nat → Nat → Option (List Allocation × Nat)
  | 0, allocs, cnt, t =>
    if k ≤ cnt then some (allocs, t) else none
  | fuel + 1, allocs, cnt, t =>
    if k ≤ cnt then some (allocs, t)
    else
      match allocs[σ t % allocs.length]? with
      | none => none
      | some a =>
        if projMem p a.projects then
          drawLoop σ p k fuel allocs cnt (t + 1)
        else
          drawLoop σ p k fuel
            (allocs.set (σ t % allocs.length) ⟨a.judge, a.projects ++ [p]⟩)
            (cnt + 1) (t + 1)

/-- The outer `for project in &self.projects` loop. -/
def allocProjects (σ : Nat → Nat) (k fuel : Nat) :
    List Project → List Allocation → Nat → Option (List Allocation × Nat)
  | [], allocs, t => some (allocs, t)
  | p :: ps, allocs, t =>
    (drawLoop σ p k fuel allocs 0 t).bind fun r => allocProjects σ k fuel ps r.1 r.2

/-- `RandomFairAllocator::allocate` from `allocate.rs`, over a draw stream
`σ` and a fuel bound for the sampling loop. -/
def allocate (σ : Nat → Nat) (fuel : Nat) (config : AllocationConfig)
    (judges : List Judge) (projects : List Project) :
    Option (Except Error Allocations) :=
  if judges.isEmpty then some (.error .ErrNoJudges)
  else if projects.isEmpty then some (.error .ErrNoProjects)
  else
    let allocations := judges.map fun judge => Allocation.mk judge []
    if judges.length < config.judge_amount_min then
      some (.error (.ErrNotEnoughJudges judges.length projects.length
        config.judge_amount_min))
    else
      (allocProjects σ config.judge_amount_min fuel projects allocations 0).map
        fun r => .ok ⟨r.1⟩

/-- The run of `RandomFairAllocator::allocate` with stream `σ` terminates
(with an error or a result). -/
def Terminates (σ : Nat → Nat) (config : AllocationConfig)
    (judges : List Judge) (projects : List Project) : Prop :=
  ∃ fuel r, allocate σ fuel config judges projects = some r

end RandomFairAllocator

/-- A rejection-sampling-safe ("fair") draw stream for `n` slots: at every
point of the stream, every index below `n` is eventually drawn again.  Any
real random source is fair with probability 1; the spec demands the source
be rejection-sampling safe. -/
def Fair (σ : Nat → Nat) (n : Nat) : Prop :=
  ∀ t i, i < n → ∃ u, t ≤ u ∧ σ u % n = i

/-- Pairwise distinctness of a project list under the code's project
equality (`id` and `name`). -/
def PairwiseDistinct (l : List Project) : Prop :=
  l.Pairwise fun a b => projEq a b = false


/-- Folding a push-if-`some` body over a list from `init` appends the
`filterMap` of the list. -/
theorem foldl_push_eq_filterMap {α β : Type} (g : α → Option β) :
    ∀ (l : List α) (init : List β),
      l.foldl (fun acc x => acc ++ (g x).toList) init = init ++ l.filterMap g := by
  intro l
  induction l with
  | nil => simp
  | cons x xs ih =>
    intro init
    cases hx : g x <;> simp [hx, ih, List.filterMap_cons]

/-- The inner sequence loop, characterised as a `filterMap` over the index
range (the `j < num_projects` guard is the code's wraparound skip). -/
theorem judgeProjects_eq_filterMap (projects : List Project) (P s ppj : Nat) :
    SequenceFairAllocator.judgeProjects projects P s ppj
      = (List.range ppj).filterMap fun j =>
          if j < P then some (projects.getD ((s + j) % P) ⟨"", "", none⟩) else none := by
  have hbody : (fun (acc : List Project) (j : Nat) =>
        if j < P then acc ++ [projects.getD ((s + j) % P) ⟨"", "", none⟩] else acc)
      = fun acc j =>
        acc ++ (if j < P then some (projects.getD ((s + j) % P) ⟨"", "", none⟩)
                else none).toList := by
    funext acc j
    split <;> simp
  rw [SequenceFairAllocator.judgeProjects, hbody,
    foldl_push_eq_filterMap
      (fun j => if j < P then some (projects.getD ((s + j) % P) ⟨"", "", none⟩) else none)]
  simp

/-- When `projects_per_judge ≤ num_projects` the skip in the inner loop never
fires and the loop produces exactly one project per index. -/
theorem judgeProjects_eq_map (projects : List Project) (P s ppj : Nat) (hppj : ppj ≤ P) :
    SequenceFairAllocator.judgeProjects projects P s ppj
      = (List.range ppj).map fun j => projects.getD ((s + j) % P) ⟨"", "", none⟩ := by
  rw [judgeProjects_eq_filterMap]
  rw [show (fun j => if j < P then some (projects.getD ((s + j) % P) ⟨"", "", none⟩) else none)
      = fun j => if j < P then some ((fun j => projects.getD ((s + j) % P) ⟨"", "", none⟩) j)
          else none from rfl]
  rw [List.filterMap_congr (g := fun j =>
      some (projects.getD ((s + j) % P) ⟨"", "", none⟩))]
  · exact List.filterMap_eq_map _ ▸ rfl
  · intro j hj
    rw [List.mem_range] at hj
    rw [if_pos (lt_of_lt_of_le hj hppj)]

/-- Under the precondition `judge_amount_min ≤ judge_count`, each judge's
project count `ceil(P*k / J)` is at most `P`. -/
theorem ceilDiv_le (P k J : Nat) (hk : k ≤ J) (hJ : 0 < J) :
    SequenceFairAllocator.ceilDiv (P * k) J ≤ P := by
  rw [SequenceFairAllocator.ceilDiv]
  rw [Nat.lt_succ_iff.symm, Nat.succ_eq_add_one, Nat.div_lt_iff_lt_mul hJ]
  have h1 : P * k ≤ P * J := Nat.mul_le_mul_left P hk
  have h2 : P * J + J = (P + 1) * J := by ring
  omega


/-! ## Scoring engine (`scoring.rs`) -/

/-- Modelled from the spec: `Mode` from `mode.rs`, which `lib.rs` declares
but whose source file is missing; §3 of the spec fixes its variants to
`{Average | Total}` (default `Average`). -/
inductive Mode where
  | Average
  | Total
deriving DecidableEq, Repr

/-- Modelled from the spec: `Order` from `order.rs`, which `lib.rs` declares
but whose source file is missing; §3 of the spec fixes its variants to
`{ScoreAsc | ScoreDesc | ProjectNameAsc | ProjectNameDesc}` (default
`ScoreDesc`). -/
inductive Order where
  | ScoreAsc
  | ScoreDesc
  | ProjectNameAsc
  | ProjectNameDesc
deriving DecidableEq, Repr

/-- `ScorerConfig` from `scoring.rs`. -/
structure ScorerConfig where
  format : Format
  order : Order
  mode : Mode
deriving DecidableEq, Repr

/-- `Score` from `scoring.rs` (the `f64` score modelled as `Rat`). -/
structure Score where
  project_name : String
  score : Rat
deriving DecidableEq, Repr

/-- `Scores` from `scoring.rs`. -/
structure Scores where
  scores : List Score
deriving DecidableEq, Repr

/-- `ScoreTable` from `scoring.rs`: a `HashMap<String, (f64, u32)>` from
project key to `(sum_of_scores, count)`, modelled as an association list
with first-match lookup. -/
structure ScoreTable where
  scores : List (String × (Rat × Nat))
deriving DecidableEq, Repr

namespace ScoreTable

/-- `HashMap::get`. -/
def get (t : ScoreTable) (project_name : String) : Option (Rat × Nat) :=
  (t.scores.find? fun e => e.1 == project_name).map (·.2)

/-- `ScoreTable::add`: `entry(name).or_insert((0.0, 0))`, then
`.0 += score; .1 += 1`. -/
def add (t : ScoreTable) (project_name : String) (score : Rat) : ScoreTable :=
  if t.scores.any fun e => e.1 == project_name then
    ⟨t.scores.map fun e =>
      if e.1 == project_name then (e.1, (e.2.1 + score, e.2.2 + 1)) else e⟩
  else
    ⟨t.scores ++ [(project_name, (score, 1))]⟩

/-- `ScoreTable::get_total_score`. -/
def get_total_score (t : ScoreTable) (project_name : String) : Option Rat :=
  (t.get project_name).map fun e => e.1

/-- `ScoreTable::get_average_score` (`0.0` on a zero count, never dividing
by zero). -/
def get_average_score (t : ScoreTable) (project_name : String) : Option Rat :=
  (t.get project_name).map fun e => if e.2 = 0 then 0 else e.1 / (e.2 : Rat)

/-- `ScoreTable::to_scores`: iterate the supplied projects in order, pushing
`(name, average)` (in `Average` mode) or `(name, total)` (otherwise) exactly
when the table lookup succeeds. -/
def to_scores (t : ScoreTable) (projects : List Project) (config : ScorerConfig) :
    Scores :=
  ⟨projects.foldl
    (fun scores_vec project =>
      if config.mode = Mode.Average then
        scores_vec ++ ((t.get_average_score project.name).map
          fun avg_score => Score.mk project.name avg_score).toList
      else
        scores_vec ++ ((t.get_total_score project.name).map
          fun total_score => Score.mk project.name total_score).toList)
    []⟩

end ScoreTable

/-- `StackRankDecision` from `scoring.rs`: `(project, rank)` pairs decided
by one judge. -/
structure StackRankDecision where
  judge_id : String
  ranks : List (String × Nat)
deriving DecidableEq, Repr

/-- `StackRankScorer` from `scoring.rs`; `rank_weights : HashMap<u32, f64>`
modelled as an association list. -/
structure StackRankScorer where
  config : ScorerConfig
  judge_stack_decisions : List StackRankDecision
  projects : List Project
  rank_weights : List (Nat × Rat)
deriving DecidableEq, Repr

namespace StackRankScorer

/-- `HashMap::get` on the rank-weight mapping. -/
def weightsGet (w : List (Nat × Rat)) (rank : Nat) : Option Rat :=
  (w.find? fun e => e.1 == rank).map (·.2)

/-- The body of the accumulation loop in `StackRankScorer::score`: look the
rank up in the weight mapping; add the weight if mapped, drop the pair
silently otherwise. -/
def addPair (w : List (Nat × Rat)) (results : ScoreTable) (pr : String × Nat) :
    ScoreTable :=
  match weightsGet w pr.2 with
  | some weight => results.add pr.1 weight
  | none => results

/-- The accumulation phase of `StackRankScorer::score`: for every decision,
for every `(project, rank)` pair in it, apply `addPair`. -/
def buildTable (w : List (Nat × Rat)) (decisions : List StackRankDecision) :
    ScoreTable :=
  decisions.foldl
    (fun results decision => decision.ranks.foldl (addPair w) results)
    ⟨[]⟩

/-- `StackRankScorer::score` from `scoring.rs`.  Rust's stable `sort_by` with
the four comparators is modelled by the stable `List.mergeSort` with the
corresponding boolean relations (`partial_cmp ≤ Equal`); over `Rat` scores
the comparison is total, mirroring the spec's no-NaN precondition. -/
def score (s : StackRankScorer) : Except Error Scores :=
  if s.rank_weights.isEmpty then .error .ErrNoRankWeights
  else if s.projects.isEmpty then .error .ErrNoProjects
  else
    let results := buildTable s.rank_weights s.judge_stack_decisions
    let scores := results.to_scores s.projects s.config
    match s.config.order with
    | .ScoreAsc =>
        .ok ⟨scores.scores.mergeSort fun a b => decide (a.score ≤ b.score)⟩
    | .ScoreDesc =>
        .ok ⟨scores.scores.mergeSort fun a b => decide (b.score ≤ a.score)⟩
    | .ProjectNameAsc =>
        .ok ⟨scores.scores.mergeSort fun a b => decide (a.project_name ≤ b.project_name)⟩
    | .ProjectNameDesc =>
        .ok ⟨scores.scores.mergeSort fun a b => decide (b.project_name ≤ a.project_name)⟩

/-- The same scorer with every unmapped `(project, rank)` pair removed from
every decision. -/
def filterMapped (s : StackRankScorer) : StackRankScorer :=
  ⟨s.config,
    s.judge_stack_decisions.map fun d =>
      ⟨d.judge_id, d.ranks.filter fun pr => (weightsGet s.rank_weights pr.2).isSome⟩,
    s.projects, s.rank_weights⟩

end StackRankScorer

theorem projEq_refl (p : Project) : projEq p p = true := by
  simp [projEq]

theorem projEq_symm (a b : Project) : projEq a b = projEq b a := by
  simp only [projEq]
  rw [Bool.beq_comm (a := a.id), Bool.beq_comm (a := a.name)]

theorem projMem_append_singleton (p q : Project) (l : List Project) :
    projMem p (l ++ [q]) = (projMem p l || projEq q p) := by
  simp [projMem, List.any_append]

/-- The identity stream is fair for every positive `n`. -/
theorem fair_id (n : Nat) : Fair (fun t => t) n := by
  intro t i hi
  refine ⟨n * t + i, ?_, ?_⟩
  · have : t ≤ n * t := Nat.le_mul_of_pos_left t (by omega)
    omega
  · show (n * t + i) % n = i
    rw [Nat.mul_add_mod, Nat.mod_eq_of_lt hi]

theorem countContaining_eq_countP (p : Project) (allocs : List Allocation) :
    countContaining p allocs = allocs.countP fun a => projMem p a.projects :=
  (List.countP_eq_length_filter _ _).symm

/-- Replacing a non-matching element by a matching one raises `countP` by 1. -/
theorem countP_set_of_pos {α : Type} (f : α → Bool) :
    ∀ (l : List α) (i : Nat) (a b : α), l[i]? = some a → f a = false → f b = true →
      (l.set i b).countP f = l.countP f + 1 := by
  intro l
  induction l with
  | nil => intro i a b h _ _; simp at h
  | cons x xs ih =>
    intro i a b h hfa hfb
    cases i with
    | zero =>
      simp only [List.getElem?_cons_zero, Option.some.injEq] at h
      subst h
      simp [List.countP_cons, hfa, hfb]
    | succ n =>
      simp only [List.getElem?_cons_succ] at h
      simp only [List.set_cons_succ, List.countP_cons, ih n a b h hfa hfb]
      omega

/-- Replacing an element by one with the same predicate value keeps `countP`. -/
theorem countP_set_of_eq {α : Type} (f : α → Bool) :
    ∀ (l : List α) (i : Nat) (a b : α), l[i]? = some a → f b = f a →
      (l.set i b).countP f = l.countP f := by
  intro l
  induction l with
  | nil => intro i a b h _; simp at h
  | cons x xs ih =>
    intro i a b h hf
    cases i with
    | zero =>
      simp only [List.getElem?_cons_zero, Option.some.injEq] at h
      subst h
      simp [List.countP_cons, hf]
    | succ n =>
      simp only [List.getElem?_cons_succ] at h
      simp [List.set_cons_succ, List.countP_cons, ih n a b h hf]

namespace RandomFairAllocator

/-- The sampling loop never changes the number of allocations. -/
theorem drawLoop_length (σ : Nat → Nat) (p : Project) (k : Nat) :
    ∀ fuel allocs cnt t allocs' t',
      drawLoop σ p k fuel allocs cnt t = some (allocs', t') →
      allocs'.length = allocs.length := by
  intro fuel
  induction fuel with
  | zero =>
    intro allocs cnt t allocs' t' h
    rw [drawLoop] at h
    split at h
    · simp only [Option.some.injEq, Prod.mk.injEq] at h
      rw [h.1]
    · exact absurd h (by simp)
  | succ fuel ih =>
    intro allocs cnt t allocs' t' h
    rw [drawLoop] at h
    split at h
    · simp only [Option.some.injEq, Prod.mk.injEq] at h
      rw [h.1]
    · split at h
      · exact absurd h (by simp)
      · split at h
        · exact ih _ _ _ _ _ h
        · rw [ih _ _ _ _ _ h, List.length_set]

/-- A successful run of the sampling loop for `p` brings the number of
allocations containing `p` from its current value up by exactly the missing
`k - cnt` draws. -/
theorem drawLoop_count_self (σ : Nat → Nat) (p : Project) (k : Nat) :
    ∀ fuel allocs cnt t allocs' t',
      drawLoop σ p k fuel allocs cnt t = some (allocs', t') →
      countContaining p allocs' + cnt = countContaining p allocs + max cnt k := by
  intro fuel
  induction fuel with
  | zero =>
    intro allocs cnt t allocs' t' h
    rw [drawLoop] at h
    split at h
    · simp only [Option.some.injEq, Prod.mk.injEq] at h
      rw [h.1]
      omega
    · exact absurd h (by simp)
  | succ fuel ih =>
    intro allocs cnt t allocs' t' h
    rw [drawLoop] at h
    split at h
    · simp only [Option.some.injEq, Prod.mk.injEq] at h
      rw [h.1]
      omega
    · rename_i hcnt
      split at h
      · exact absurd h (by simp)
      · rename_i a ha
        split at h
        · have := ih _ _ _ _ _ h
          omega
        · rename_i hmem
          have hstep := ih _ _ _ _ _ h
          have hset : countContaining p
                (allocs.set (σ t % allocs.length) ⟨a.judge, a.projects ++ [p]⟩)
              = countContaining p allocs + 1 := by
            rw [countContaining_eq_countP, countContaining_eq_countP]
            exact countP_set_of_pos _ allocs _ a _ ha
              (by simpa using hmem)
              (by simp [projMem_append_singleton, projEq_refl])
          rw [hset] at hstep
          omega

/-- The sampling loop for `p` leaves the count of any project `q ≠ p`
unchanged. -/
theorem drawLoop_count_other (σ : Nat → Nat) (p : Project) (k : Nat)
    (q : Project) (hpq : projEq p q = false) :
    ∀ fuel allocs cnt t allocs' t',
      drawLoop σ p k fuel allocs cnt t = some (allocs', t') →
      countContaining q allocs' = countContaining q allocs := by
  intro fuel
  induction fuel with
  | zero =>
    intro allocs cnt t allocs' t' h
    rw [drawLoop] at h
    split at h
    · simp only [Option.some.injEq, Prod.mk.injEq] at h
      rw [h.1]
    · exact absurd h (by simp)
  | succ fuel ih =>
    intro allocs cnt t allocs' t' h
    rw [drawLoop] at h
    split at h
    · simp only [Option.some.injEq, Prod.mk.injEq] at h
      rw [h.1]
    · split at h
      · exact absurd h (by simp)
      · rename_i a ha
        split at h
        · exact ih _ _ _ _ _ h
        · rw [ih _ _ _ _ _ h]
          rw [countContaining_eq_countP, countContaining_eq_countP]
          exact countP_set_of_eq _ allocs _ a _ ha
            (by simp [projMem_append_singleton, hpq])

/-- More fuel can only turn divergence into the same result. -/
theorem drawLoop_mono (σ : Nat → Nat) (p : Project) (k : Nat) :
    ∀ f₁ f₂ allocs cnt t r, f₁ ≤ f₂ →
      drawLoop σ p k f₁ allocs cnt t = some r →
      drawLoop σ p k f₂ allocs cnt t = some r := by
  intro f₁
  induction f₁ with
  | zero =>
    intro f₂ allocs cnt t r _ h
    rw [drawLoop] at h
    split at h
    · rename_i hcnt
      cases f₂ <;> rw [drawLoop] <;> rw [if_pos hcnt] <;> exact h
    · exact absurd h (by simp)
  | succ f₁ ih =>
    intro f₂ allocs cnt t r hle h
    cases f₂ with
    | zero => omega
    | succ f₂ =>
      rw [drawLoop] at h ⊢
      by_cases hcnt : k ≤ cnt
      · rw [if_pos hcnt] at h ⊢
        exact h
      · rw [if_neg hcnt] at h ⊢
        cases hsl : allocs[σ t % allocs.length]? with
        | none =>
          rw [hsl] at h
          exact absurd h (by simp)
        | some a =>
          simp only [hsl] at h ⊢
          by_cases hmem : projMem p a.projects = true
          · rw [if_pos hmem] at h ⊢
            exact ih f₂ _ _ _ _ (by omega) h
          · rw [if_neg hmem] at h ⊢
            exact ih f₂ _ _ _ _ (by omega) h

/-- The `contains` guard keeps every individual judge list duplicate-free. -/
theorem drawLoop_nodup (σ : Nat → Nat) (p : Project) (k : Nat) :
    ∀ fuel allocs cnt t allocs' t',
      drawLoop σ p k fuel allocs cnt t = some (allocs', t') →
      (∀ a ∈ allocs, a.projects.Pairwise fun x y => projEq x y = false) →
      ∀ a ∈ allocs', a.projects.Pairwise fun x y => projEq x y = false := by
  intro fuel
  induction fuel with
  | zero =>
    intro allocs cnt t allocs' t' h hnd
    rw [drawLoop] at h
    split at h
    · simp only [Option.some.injEq, Prod.mk.injEq] at h
      rw [← h.1]
      exact hnd
    · exact absurd h (by simp)
  | succ fuel ih =>
    intro allocs cnt t allocs' t' h hnd
    rw [drawLoop] at h
    split at h
    · simp only [Option.some.injEq, Prod.mk.injEq] at h
      rw [← h.1]
      exact hnd
    · split at h
      · exact absurd h (by simp)
      · rename_i a ha
        split at h
        · exact ih _ _ _ _ _ h hnd
        · rename_i hmem
          refine ih _ _ _ _ _ h ?_
          intro b hb
          rcases List.mem_or_eq_of_mem_set hb with hb' | hb'
          · exact hnd b hb'
          · subst hb'
            have hpa : (a.projects).Pairwise fun x y => projEq x y = false :=
              hnd a (List.getElem?_mem ha)
            rw [List.pairwise_append]
            refine ⟨hpa, List.pairwise_singleton _ _, ?_⟩
            intro x hx y hy
            rw [List.mem_singleton] at hy
            have hmem' : a.projects.any (fun q => projEq q p) = false := by
              cases hpm : projMem p a.projects with
              | false => exact hpm
              | true => exact absurd hpm hmem
            rw [hy]
            exact Bool.not_eq_true _ ▸ List.any_eq_false.mp hmem' x hx

/-- If from `t` on, the drawn slot always already contains `p`, the sampling
loop never finishes: this is the divergence scenario behind the corrected
termination claims. -/
theorem drawLoop_stuck (σ : Nat → Nat) (p : Project) (k : Nat)
    (allocs : List Allocation) :
    ∀ fuel cnt t, cnt < k →
      (∀ u, t ≤ u → ∀ a, allocs[σ u % allocs.length]? = some a →
        projMem p a.projects = true) →
      drawLoop σ p k fuel allocs cnt t = none := by
  intro fuel
  induction fuel with
  | zero =>
    intro cnt t hcnt _
    rw [drawLoop, if_neg (by omega)]
  | succ fuel ih =>
    intro cnt t hcnt hall
    rw [drawLoop, if_neg (by omega)]
    cases hsl : allocs[σ t % allocs.length]? with
    | none => simp
    | some a =>
      simp only
      rw [if_pos (hall t (Nat.le_refl t) a hsl)]
      exact ih cnt (t + 1) hcnt fun u hu => hall u (by omega)

/-- Taking a successful (non-duplicate) draw preserves eventual success. -/
theorem drawLoop_goodStep (σ : Nat → Nat) (p : Project) (k : Nat)
    (allocs : List Allocation) (cnt t : Nat) (a : Allocation)
    (hcnt : ¬ k ≤ cnt) (ha : allocs[σ t % allocs.length]? = some a)
    (hmem : projMem p a.projects = false)
    (h : ∃ fuel r, drawLoop σ p k fuel
        (allocs.set (σ t % allocs.length) ⟨a.judge, a.projects ++ [p]⟩)
        (cnt + 1) (t + 1) = some r) :
    ∃ fuel r, drawLoop σ p k fuel allocs cnt t = some r := by
  obtain ⟨f, r, hf⟩ := h
  refine ⟨f + 1, r, ?_⟩
  rw [drawLoop, if_neg hcnt]
  simp only [ha]
  rw [if_neg (by simp [hmem])]
  exact hf

/-- A rejected draw preserves eventual success. -/
theorem drawLoop_rejectStep (σ : Nat → Nat) (p : Project) (k : Nat)
    (allocs : List Allocation) (cnt t : Nat) (a : Allocation)
    (hcnt : ¬ k ≤ cnt) (ha : allocs[σ t % allocs.length]? = some a)
    (hmem : projMem p a.projects = true)
    (h : ∃ fuel r, drawLoop σ p k fuel allocs cnt (t + 1) = some r) :
    ∃ fuel r, drawLoop σ p k fuel allocs cnt t = some r := by
  obtain ⟨f, r, hf⟩ := h
  refine ⟨f + 1, r, ?_⟩
  rw [drawLoop, if_neg hcnt]
  simp only [ha]
  rw [if_pos hmem]
  exact hf

/-- If a judge without `p` will be drawn in `d` more steps, and every
completed draw can be continued, the loop succeeds from here. -/
theorem drawLoop_reach (σ : Nat → Nat) (p : Project) (k : Nat)
    (allocs : List Allocation) (cnt : Nat) (hcnt : cnt < k)
    (hK : ∀ allocs' t', allocs'.length = allocs.length →
        countContaining p allocs' ≤ cnt + 1 →
        ∃ fuel r, drawLoop σ p k fuel allocs' (cnt + 1) t' = some r)
    (hcount : countContaining p allocs ≤ cnt) :
    ∀ d t, (∃ a, allocs[σ (t + d) % allocs.length]? = some a ∧
        projMem p a.projects = false) →
      ∃ fuel r, drawLoop σ p k fuel allocs cnt t = some r := by
  intro d
  induction d with
  | zero =>
    intro t hgood
    obtain ⟨a, ha, hmem⟩ := hgood
    rw [Nat.add_zero] at ha
    refine drawLoop_goodStep σ p k allocs cnt t a (by omega) ha hmem ?_
    refine hK _ (t + 1) (List.length_set ..) ?_
    have hstep := countP_set_of_pos (fun b => projMem p b.projects) allocs
      (σ t % allocs.length) a ⟨a.judge, a.projects ++ [p]⟩ ha (by simpa using hmem)
      (by simp [projMem_append_singleton, projEq_refl])
    rw [countContaining_eq_countP] at hcount ⊢
    omega
  | succ d ihd =>
    intro t hgood
    have hlen : 0 < allocs.length := by
      obtain ⟨a, ha, _⟩ := hgood
      rcases List.getElem?_eq_some.mp ha with ⟨hlt, _⟩
      omega
    have hidx : σ t % allocs.length < allocs.length := Nat.mod_lt _ hlen
    set a1 := allocs[σ t % allocs.length]
    have ha1 : allocs[σ t % allocs.length]? = some a1 := List.getElem?_eq_getElem hidx
    by_cases hmem1 : projMem p a1.projects = true
    · refine drawLoop_rejectStep σ p k allocs cnt t a1 (by omega) ha1 hmem1 ?_
      refine ihd (t + 1) ?_
      have : t + 1 + d = t + (d + 1) := by omega
      rw [this]
      exact hgood
    · refine drawLoop_goodStep σ p k allocs cnt t a1 (by omega) ha1
        (Bool.not_eq_true _ ▸ hmem1) ?_
      refine hK _ (t + 1) (List.length_set ..) ?_
      have hstep := countP_set_of_pos (fun b => projMem p b.projects) allocs
        (σ t % allocs.length) a1 ⟨a1.judge, a1.projects ++ [p]⟩ ha1
        (by simpa using hmem1)
        (by simp [projMem_append_singleton, projEq_refl])
      rw [countContaining_eq_countP] at hcount ⊢
      omega

/-- Fair-stream termination of the sampling loop: with a rejection-sampling
safe stream, `cnt` can always be driven up to `k` as long as at most `cnt`
of the `J ≥ k` judges already hold `p`. -/
theorem drawLoop_fair_exists (σ : Nat → Nat) (p : Project) (k J : Nat)
    (hfair : Fair σ J) (hkJ : k ≤ J) :
    ∀ n allocs cnt t, allocs.length = J → countContaining p allocs ≤ cnt →
      k ≤ cnt + n →
      ∃ fuel r, drawLoop σ p k fuel allocs cnt t = some r := by
  intro n
  induction n with
  | zero =>
    intro allocs cnt t _ _ hk
    exact ⟨0, (allocs, t), by rw [drawLoop, if_pos (by omega)]⟩
  | succ n ihn =>
    intro allocs cnt t hlen hcount hk
    by_cases hcnt : k ≤ cnt
    · exact ⟨0, (allocs, t), by rw [drawLoop, if_pos hcnt]⟩
    · have hcountlt : countContaining p allocs < allocs.length := by omega
      rw [countContaining_eq_countP] at hcountlt
      have hex : ∃ a ∈ allocs, projMem p a.projects = false := by
        by_contra hc
        push_neg at hc
        have hall : ∀ a ∈ allocs, projMem p a.projects := by
          intro a ha
          cases hfa : projMem p a.projects with
          | false => exact absurd hfa (hc a ha)
          | true => rfl
        rw [List.countP_eq_length.mpr hall] at hcountlt
        omega
      obtain ⟨a, hamem, hafalse⟩ := hex
      obtain ⟨i, hi, hieq⟩ := List.getElem_of_mem hamem
      obtain ⟨u, htu, hσu⟩ := hfair t i (by omega)
      refine drawLoop_reach σ p k allocs cnt (by omega)
        (fun allocs' t' hlen' hcount' =>
          ihn allocs' (cnt + 1) t' (hlen ▸ hlen') hcount' (by omega))
        hcount (u - t) t ?_
      have hut : t + (u - t) = u := by omega
      rw [hut, hlen, hσu]
      exact ⟨allocs[i], List.getElem?_eq_getElem hi, hieq ▸ hafalse⟩

/-- Fuel monotonicity for the project loop. -/
theorem allocProjects_mono (σ : Nat → Nat) (k : Nat) :
    ∀ ps f₁ f₂ allocs t r, f₁ ≤ f₂ →
      allocProjects σ k f₁ ps allocs t = some r →
      allocProjects σ k f₂ ps allocs t = some r := by
  intro ps
  induction ps with
  | nil => intro f₁ f₂ allocs t r _ h; exact h
  | cons p ps ih =>
    intro f₁ f₂ allocs t r hle h
    rw [allocProjects] at h ⊢
    cases hd : drawLoop σ p k f₁ allocs 0 t with
    | none => rw [hd] at h; exact absurd h (by simp)
    | some a =>
      rw [hd] at h
      rw [drawLoop_mono σ p k f₁ f₂ allocs 0 t a hle hd]
      exact ih f₁ f₂ a.1 a.2 r hle h

/-- The project loop never changes the number of allocations. -/
theorem allocProjects_length (σ : Nat → Nat) (k fuel : Nat) :
    ∀ ps allocs t allocs' t',
      allocProjects σ k fuel ps allocs t = some (allocs', t') →
      allocs'.length = allocs.length := by
  intro ps
  induction ps with
  | nil =>
    intro allocs t allocs' t' h
    rw [allocProjects] at h
    simp only [Option.some.injEq, Prod.mk.injEq] at h
    rw [h.1]
  | cons p ps ih =>
    intro allocs t allocs' t' h
    rw [allocProjects] at h
    cases hd : drawLoop σ p k fuel allocs 0 t with
    | none => rw [hd] at h; exact absurd h (by simp)
    | some a =>
      rw [hd] at h
      rw [ih a.1 a.2 allocs' t' h, drawLoop_length σ p k fuel allocs 0 t a.1 a.2 (by rw [hd])]

/-- Allocating projects that all differ from `q` does not change how many
judges hold `q`. -/
theorem allocProjects_count_other (σ : Nat → Nat) (k fuel : Nat) (q : Project) :
    ∀ ps, (∀ p ∈ ps, projEq p q = false) →
      ∀ allocs t allocs' t',
        allocProjects σ k fuel ps allocs t = some (allocs', t') →
        countContaining q allocs' = countContaining q allocs := by
  intro ps
  induction ps with
  | nil =>
    intro _ allocs t allocs' t' h
    rw [allocProjects] at h
    simp only [Option.some.injEq, Prod.mk.injEq] at h
    rw [h.1]
  | cons p ps ih =>
    intro hne allocs t allocs' t' h
    rw [allocProjects] at h
    cases hd : drawLoop σ p k fuel allocs 0 t with
    | none => rw [hd] at h; exact absurd h (by simp)
    | some a =>
      rw [hd] at h
      rw [ih (fun r hr => hne r (List.mem_cons_of_mem p hr)) a.1 a.2 allocs' t' h,
        drawLoop_count_other σ p k q (hne p (List.mem_cons_self p ps)) fuel allocs 0 t a.1 a.2
          (by rw [hd])]

/-- After a successful run of the project loop over pairwise-distinct
projects none of which had yet been assigned, every processed project is held
by exactly `k` judges. -/
theorem allocProjects_counts (σ : Nat → Nat) (k fuel : Nat) :
    ∀ ps allocs t allocs' t',
      allocProjects σ k fuel ps allocs t = some (allocs', t') →
      PairwiseDistinct ps →
      (∀ p ∈ ps, countContaining p allocs = 0) →
      ∀ p ∈ ps, countContaining p allocs' = k := by
  intro ps
  induction ps with
  | nil => intro _ _ _ _ _ _ _ p hp; exact absurd hp (List.not_mem_nil p)
  | cons p ps ih =>
    intro allocs t allocs' t' h hdist hzero q hq
    rw [allocProjects] at h
    cases hd : drawLoop σ p k fuel allocs 0 t with
    | none => rw [hd] at h; exact absurd h (by simp)
    | some a =>
      rw [hd] at h
      have hne : ∀ r ∈ ps, projEq p r = false :=
        fun r hr => List.rel_of_pairwise_cons hdist hr
      rcases List.mem_cons.mp hq with hq' | hq'
      · subst hq'
        have hself := drawLoop_count_self σ q k fuel allocs 0 t a.1 a.2 (by rw [hd])
        have hzq := hzero q (List.mem_cons_self q ps)
        have hfinal := allocProjects_count_other σ k fuel q ps
          (fun r hr => projEq_symm r q ▸ hne r hr) a.1 a.2 allocs' t' h
        omega
      · refine ih a.1 a.2 allocs' t' h (List.Pairwise.of_cons hdist) ?_ q hq'
        intro r hr
        rw [drawLoop_count_other σ p k r (hne r hr) fuel allocs 0 t a.1 a.2 (by rw [hd])]
        exact hzero r (List.mem_cons_of_mem p hr)

/-- The project loop keeps every judge list duplicate-free. -/
theorem allocProjects_nodup (σ : Nat → Nat) (k fuel : Nat) :
    ∀ ps allocs t allocs' t',
      allocProjects σ k fuel ps allocs t = some (allocs', t') →
      (∀ a ∈ allocs, a.projects.Pairwise fun x y => projEq x y = false) →
      ∀ a ∈ allocs', a.projects.Pairwise fun x y => projEq x y = false := by
  intro ps
  induction ps with
  | nil =>
    intro allocs t allocs' t' h hnd
    rw [allocProjects] at h
    simp only [Option.some.injEq, Prod.mk.injEq] at h
    rw [← h.1]
    exact hnd
  | cons p ps ih =>
    intro allocs t allocs' t' h hnd
    rw [allocProjects] at h
    cases hd : drawLoop σ p k fuel allocs 0 t with
    | none => rw [hd] at h; exact absurd h (by simp)
    | some a =>
      rw [hd] at h
      exact ih a.1 a.2 allocs' t' h
        (drawLoop_nodup σ p k fuel allocs 0 t a.1 a.2 (by rw [hd]) hnd)

/-- Fair-stream termination of the whole project loop, for pairwise-distinct
unassigned projects and `k ≤ J`. -/
theorem allocProjects_fair_exists (σ : Nat → Nat) (k J : Nat)
    (hfair : Fair σ J) (hkJ : k ≤ J) :
    ∀ ps allocs t, allocs.length = J → PairwiseDistinct ps →
      (∀ p ∈ ps, countContaining p allocs = 0) →
      ∃ fuel allocs' t', allocProjects σ k fuel ps allocs t = some (allocs', t') := by
  intro ps
  induction ps with
  | nil => intro allocs t _ _ _; exact ⟨0, allocs, t, rfl⟩
  | cons p ps ih =>
    intro allocs t hlen hdist hzero
    obtain ⟨f₁, r, hr⟩ := drawLoop_fair_exists σ p k J hfair hkJ k allocs 0 t hlen
      (by rw [hzero p (List.mem_cons_self p ps)]) (by omega)
    have hlen1 : r.1.length = J := by
      rw [drawLoop_length σ p k f₁ allocs 0 t r.1 r.2 (by rw [hr]), hlen]
    have hzero1 : ∀ q ∈ ps, countContaining q r.1 = 0 := by
      intro q hq
      rw [drawLoop_count_other σ p k q (List.rel_of_pairwise_cons hdist hq) f₁ allocs 0 t
        r.1 r.2 (by rw [hr])]
      exact hzero q (List.mem_cons_of_mem p hq)
    obtain ⟨f₂, allocs', t', h₂⟩ := ih r.1 r.2 hlen1 (List.Pairwise.of_cons hdist) hzero1
    refine ⟨max f₁ f₂, allocs', t', ?_⟩
    rw [allocProjects,
      drawLoop_mono σ p k f₁ (max f₁ f₂) allocs 0 t r (Nat.le_max_left _ _) (by rw [hr])]
    exact allocProjects_mono σ k ps f₂ (max f₁ f₂) r.1 r.2 (allocs', t')
      (Nat.le_max_right _ _) h₂

/-- In the initial allocation vector every judge's list is empty. -/
theorem countContaining_initial (judges : List Judge) (p : Project) :
    countContaining p (judges.map fun judge => Allocation.mk judge []) = 0 := by
  rw [countContaining_eq_countP]
  rw [List.countP_eq_zero]
  intro a ha
  rcases List.mem_map.mp ha with ⟨j, _, hj⟩
  rw [← hj]
  simp [projMem]

/-- Once the counter has reached `k`, the loop exits immediately. -/
theorem drawLoop_done (σ : Nat → Nat) (p : Project) (k fuel : Nat)
    (allocs : List Allocation) (cnt t : Nat) (h : k ≤ cnt) :
    drawLoop σ p k fuel allocs cnt t = some (allocs, t) := by
  cases fuel <;> rw [drawLoop, if_pos h]

/-- Reduction of `allocate` on inputs passing all three error checks. -/
theorem allocate_eq (σ : Nat → Nat) (fuel : Nat) (config : AllocationConfig)
    (judges : List Judge) (projects : List Project)
    (hj : judges ≠ []) (hp : projects ≠ [])
    (hk : config.judge_amount_min ≤ judges.length) :
    allocate σ fuel config judges projects
      = (allocProjects σ config.judge_amount_min fuel projects
          (judges.map fun judge => Allocation.mk judge []) 0).map
            fun r => .ok ⟨r.1⟩ := by
  rw [allocate, if_neg (by simp [List.isEmpty_iff, hj]),
    if_neg (by simp [List.isEmpty_iff, hp])]
  show (if judges.length < config.judge_amount_min then
      some (Except.error (Error.ErrNotEnoughJudges judges.length projects.length
        config.judge_amount_min))
    else
      (allocProjects σ config.judge_amount_min fuel projects
        (judges.map fun judge => Allocation.mk judge []) 0).map
          fun r => (Except.ok ⟨r.1⟩ : Except Error Allocations)) = _
  rw [if_neg (by omega)]

end RandomFairAllocator

/-- C2: For every non-empty judges list of size `J`, non-empty projects list
of size `P`, and `judge_amount_min = k ≤ J`, `SequenceFairAllocator.allocate`
returns `Ok` where every judge's list has length `ceil(P*k / J)` and the
judge at index `i` receives exactly the projects at indices
`(i*P/J + j) % P` for `j = 0 .. projects_per_judge - 1` (the code's skip for
`j ≥ P` never fires because `ceil(P*k / J) ≤ P` under the precondition). -/
theorem sequence_allocate_spec (config : AllocationConfig) (judges : List Judge)
    (projects : List Project) (hj : judges ≠ []) (hp : projects ≠ [])
    (hk : config.judge_amount_min ≤ judges.length) :
    ∃ A, SequenceFairAllocator.allocate config judges projects = .ok A ∧
      A.allocations.length = judges.length ∧
      ∀ i a, A.allocations[i]? = some a →
        some a.judge = judges[i]? ∧
        a.projects.length
          = SequenceFairAllocator.ceilDiv (projects.length * config.judge_amount_min)
              judges.length ∧
        ∀ j, j < a.projects.length →
          a.projects[j]?
            = projects[(i * projects.length / judges.length + j) % projects.length]? := by
  have hJ : 0 < judges.length := List.length_pos.mpr hj
  have hP : 0 < projects.length := List.length_pos.mpr hp
  have hppj := ceilDiv_le projects.length config.judge_amount_min judges.length hk hJ
  rw [SequenceFairAllocator.allocate,
    if_neg (by simp [List.isEmpty_iff, hj]),
    if_neg (by simp [List.isEmpty_iff, hp]),
    if_neg (by omega)]
  refine ⟨_, rfl, by simp, ?_⟩
  intro i a ha
  simp only [List.getElem?_map, List.getElem?_enum] at ha
  cases hji : judges[i]? with
  | none => rw [hji] at ha; simp at ha
  | some judge =>
    rw [hji] at ha
    simp only [Option.map_some'] at ha
    injection ha with ha
    subst ha
    refine ⟨rfl, ?_, ?_⟩
    · simp [judgeProjects_eq_map _ _ _ _ hppj]
    · intro j hj'
      simp only [judgeProjects_eq_map _ _ _ _ hppj, List.length_map,
        List.length_range] at hj' ⊢
      rw [List.getElem?_map, List.getElem?_range hj',
        Option.map_some']
      have hidx : (i * projects.length / judges.length + j) % projects.length
          < projects.length := Nat.mod_lt _ hP
      simp [List.getD_eq_getElem?_getD, List.getElem?_eq_getElem hidx]

/-- C2 witness: the spec's own example shape — 2 judges, `judge_amount_min = 2`,
4 projects. -/
theorem sequence_allocate_spec_witness :
    ∃ A, SequenceFairAllocator.allocate ⟨2, 5, Format.Json, none⟩
        [⟨"1", "Judge 1"⟩, ⟨"2", "Judge 2"⟩]
        [⟨"1", "P1", none⟩, ⟨"2", "P2", none⟩, ⟨"3", "P3", none⟩, ⟨"4", "P4", none⟩]
        = .ok A ∧
      A.allocations.length = 2 ∧
      ∀ i a, A.allocations[i]? = some a →
        some a.judge = [Judge.mk "1" "Judge 1", Judge.mk "2" "Judge 2"][i]? ∧
        a.projects.length = SequenceFairAllocator.ceilDiv (4 * 2) 2 ∧
        ∀ j, j < a.projects.length →
          a.projects[j]?
            = [Project.mk "1" "P1" none, Project.mk "2" "P2" none,
                Project.mk "3" "P3" none, Project.mk "4" "P4" none][(i * 4 / 2 + j) % 4]? :=
  sequence_allocate_spec ⟨2, 5, Format.Json, none⟩ _ _
    (by decide) (by decide) (by decide)

/-- C9: For every valid Time t (hour < 24 and minute < 60),
`Time.from_minutes (t.to_minutes) = t`; and `Time.new h m` returns the
invalid-time error whenever `h ≥ 24` or `m ≥ 60` (in particular for `h = 24`
or `m = 60`) and `Ok` otherwise. -/
theorem time_roundtrip_and_new_bounds (t : Time)
    (h24 : t.hour < 24) (h60 : t.minute < 60) :
    Time.from_minutes t.to_minutes = t ∧
    (∀ h m, 24 ≤ h ∨ 60 ≤ m → Time.new h m = .error .ErrInvalidTime) ∧
    (∀ h m, h < 24 → m < 60 → Time.new h m = .ok ⟨h, m⟩) := by
  refine ⟨?_, ?_, ?_⟩
  · cases t with
    | mk hour minute =>
      simp only [Time.from_minutes, Time.to_minutes, Time.mk.injEq]
      simp only [Time.hour, Time.minute] at h24 h60
      omega
  · intro h m hge
    have hc : ¬((h < 24 && m < 60) = true) := by
      simp only [Bool.and_eq_true, decide_eq_true_eq]
      omega
    rw [Time.new, if_neg hc]
  · intro h m hh hm
    simp [Time.new, hh, hm]

/-- C9 witness: concrete instantiation at 13:37, plus the boundary inputs the
claim singles out. -/
theorem time_roundtrip_and_new_bounds_witness :
    Time.from_minutes (Time.to_minutes ⟨13, 37⟩) = (⟨13, 37⟩ : Time) ∧
    Time.new 24 0 = .error .ErrInvalidTime ∧
    Time.new 0 60 = .error .ErrInvalidTime ∧
    Time.new 23 59 = .ok ⟨23, 59⟩ := by
  have h := time_roundtrip_and_new_bounds ⟨13, 37⟩ (by decide) (by decide)
  exact ⟨h.1, h.2.1 24 0 (by omega), h.2.1 0 60 (by omega),
    h.2.2 23 59 (by omega) (by omega)⟩

/-- C6: For every judges list and projects list (including empty ones),
`PresentationAllocator.allocate` returns `Ok`, every judge is assigned the
complete, identical project list in input order, and the result does not
depend on the config (in particular not on `judge_amount_min`). -/
theorem presentation_allocate_total (config config' : AllocationConfig)
    (judges : List Judge) (projects : List Project) :
    PresentationAllocator.allocate config judges projects
        = .ok ⟨judges.map fun j => ⟨j, projects⟩⟩ ∧
    PresentationAllocator.allocate config judges projects
        = PresentationAllocator.allocate config' judges projects := by
  constructor
  · simp [PresentationAllocator.allocate, List.map_map, Function.comp]
  · rfl

/-- Reduction of the sequence allocator on inputs passing the error checks. -/
theorem seq_allocate_ok_eq (config : AllocationConfig) (judges : List Judge)
    (projects : List Project) (hj : judges ≠ []) (hp : projects ≠ [])
    (hk : config.judge_amount_min ≤ judges.length) :
    SequenceFairAllocator.allocate config judges projects
      = .ok ⟨judges.enum.map fun ij =>
          Allocation.mk ij.2
            (SequenceFairAllocator.judgeProjects projects projects.length
              (ij.1 * projects.length / judges.length)
              (SequenceFairAllocator.ceilDiv
                (projects.length * config.judge_amount_min) judges.length))⟩ := by
  rw [SequenceFairAllocator.allocate, if_neg (by simp [List.isEmpty_iff, hj]),
    if_neg (by simp [List.isEmpty_iff, hp]), if_neg (by omega)]

/-- Within a window of fewer than `P` consecutive offsets, reduction mod `P`
is injective. -/
theorem mod_window_ne (s i j P : Nat) (hij : i < j) (hjP : j < P) :
    (s + i) % P ≠ (s + j) % P := by
  intro heq
  have hle : s + i ≤ s + j := by omega
  have hdvd : P ∣ s + j - (s + i) := (Nat.modEq_iff_dvd' hle).mp heq
  have hsub : s + j - (s + i) = j - i := by omega
  rw [hsub] at hdvd
  have := Nat.le_of_dvd (by omega) hdvd
  omega

/-- Over pairwise-distinct projects, each sequence-allocated judge list is
duplicate-free (its indices are distinct residues mod `P`). -/
theorem judgeProjects_nodup (projects : List Project) (s ppj : Nat)
    (hdist : PairwiseDistinct projects) (hppj : ppj ≤ projects.length)
    (hP : 0 < projects.length) :
    (SequenceFairAllocator.judgeProjects projects projects.length s ppj).Pairwise
      fun x y => projEq x y = false := by
  rw [judgeProjects_eq_map _ _ _ _ hppj, List.pairwise_map,
    List.pairwise_iff_getElem]
  intro i j hi hj hij
  rw [List.length_range] at hi hj
  rw [List.getElem_range, List.getElem_range]
  have hi' : (s + i) % projects.length < projects.length := Nat.mod_lt _ hP
  have hj' : (s + j) % projects.length < projects.length := Nat.mod_lt _ hP
  rw [List.getD_eq_getElem _ _ hi', List.getD_eq_getElem _ _ hj']
  have hne := mod_window_ne s i j projects.length hij (by omega)
  have hpair := List.pairwise_iff_getElem.mp hdist
  rcases Nat.lt_or_ge ((s + i) % projects.length) ((s + j) % projects.length)
    with hlt | hge
  · exact hpair _ _ hi' hj' hlt
  · have hlt : (s + j) % projects.length < (s + i) % projects.length := by omega
    rw [projEq_symm]
    exact hpair _ _ hj' hi' hlt

/-- C10: Whenever `RandomFairAllocator.allocate` or
`SequenceFairAllocator.allocate` returns `Ok` on pairwise-distinct projects
with `judge_amount_min ≤ judge_count`, every individual judge's project list
in the result is duplicate-free. -/
theorem allocations_duplicate_free (σ : Nat → Nat) (config : AllocationConfig)
    (judges : List Judge) (projects : List Project)
    (hdist : PairwiseDistinct projects)
    (hk : config.judge_amount_min ≤ judges.length) :
    (∀ fuel A,
      RandomFairAllocator.allocate σ fuel config judges projects = some (.ok A) →
      ∀ a ∈ A.allocations, a.projects.Pairwise fun x y => projEq x y = false) ∧
    (∀ A, SequenceFairAllocator.allocate config judges projects = .ok A →
      ∀ a ∈ A.allocations, a.projects.Pairwise fun x y => projEq x y = false) := by
  constructor
  · intro fuel A hA
    by_cases hj : judges = []
    · subst hj
      rw [RandomFairAllocator.allocate] at hA
      simp at hA
    · by_cases hp : projects = []
      · subst hp
        rw [RandomFairAllocator.allocate,
          if_neg (by simp [List.isEmpty_iff, hj])] at hA
        simp at hA
      · rw [RandomFairAllocator.allocate_eq σ fuel config judges projects hj hp hk] at hA
        cases hap : RandomFairAllocator.allocProjects σ config.judge_amount_min fuel
            projects (judges.map fun judge => Allocation.mk judge []) 0 with
        | none => rw [hap] at hA; exact absurd hA (by simp)
        | some r =>
          rw [hap] at hA
          simp only [Option.map_some', Option.some.injEq, Except.ok.injEq] at hA
          subst hA
          intro a ha
          refine RandomFairAllocator.allocProjects_nodup σ config.judge_amount_min fuel
            projects (judges.map fun judge => Allocation.mk judge []) 0 r.1 r.2
            (by rw [hap]) ?_ a ha
          intro b hb
          rcases List.mem_map.mp hb with ⟨jdg, _, hjb⟩
          rw [← hjb]
          exact List.Pairwise.nil
  · intro A hA
    by_cases hj : judges = []
    · subst hj
      rw [SequenceFairAllocator.allocate] at hA
      simp at hA
    · by_cases hp : projects = []
      · subst hp
        rw [SequenceFairAllocator.allocate,
          if_neg (by simp [List.isEmpty_iff, hj])] at hA
        simp at hA
      · have hJ : 0 < judges.length := List.length_pos.mpr hj
        have hP : 0 < projects.length := List.length_pos.mpr hp
        rw [seq_allocate_ok_eq config judges projects hj hp hk] at hA
        injection hA with hA
        subst hA
        intro a ha
        rcases List.mem_map.mp ha with ⟨ij, _, hij⟩
        rw [← hij]
        exact judgeProjects_nodup projects _ _ hdist
          (ceilDiv_le projects.length config.judge_amount_min judges.length hk hJ) hP

/-- C10 witness: one judge, two distinct projects, `judge_amount_min = 1`. -/
theorem allocations_duplicate_free_witness :
    (∀ fuel A,
      RandomFairAllocator.allocate (fun t => t) fuel ⟨1, 5, Format.Json, none⟩
          [⟨"1", "Judge 1"⟩] [⟨"a", "PA", none⟩, ⟨"b", "PB", none⟩] = some (.ok A) →
      ∀ a ∈ A.allocations, a.projects.Pairwise fun x y => projEq x y = false) ∧
    (∀ A, SequenceFairAllocator.allocate ⟨1, 5, Format.Json, none⟩
          [⟨"1", "Judge 1"⟩] [⟨"a", "PA", none⟩, ⟨"b", "PB", none⟩] = .ok A →
      ∀ a ∈ A.allocations, a.projects.Pairwise fun x y => projEq x y = false) :=
  allocations_duplicate_free (fun t => t) ⟨1, 5, Format.Json, none⟩
    [⟨"1", "Judge 1"⟩] [⟨"a", "PA", none⟩, ⟨"b", "PB", none⟩]
    (by unfold PairwiseDistinct; decide) (by decide)

/-- C1 counterexample: the claim quantifies over every projects list, but
with the same project listed twice (`judge_amount_min = 1`, two judges, a
fair stream) `RandomFairAllocator.allocate` returns `Ok` with the project
contained in `2` allocations, not `judge_amount_min = 1`. -/
theorem random_fair_counts_counterexample :
    (RandomFairAllocator.allocate (fun t => t) 2 ⟨1, 5, Format.Json, none⟩
        [⟨"1", "Judge 1"⟩, ⟨"2", "Judge 2"⟩]
        [⟨"p", "Project P", none⟩, ⟨"p", "Project P", none⟩]).map
      (fun r => r.map fun A => countContaining ⟨"p", "Project P", none⟩ A.allocations)
      = some (.ok 2) := by
  rfl

/-- C1 (amended): For pairwise-distinct projects, a rejection-sampling-safe
(fair) draw stream, non-empty judges and projects, and
`judge_amount_min = k ≤ judge_count`, `RandomFairAllocator.allocate`
terminates with `Ok` for sufficient fuel, and whenever it returns `Ok` every
input project is contained in exactly `k` allocations. -/
theorem random_fair_counts (σ : Nat → Nat) (config : AllocationConfig)
    (judges : List Judge) (projects : List Project)
    (hj : judges ≠ []) (hp : projects ≠ [])
    (hk : config.judge_amount_min ≤ judges.length)
    (hdist : PairwiseDistinct projects) (hfair : Fair σ judges.length) :
    (∃ fuel A,
      RandomFairAllocator.allocate σ fuel config judges projects = some (.ok A)) ∧
    (∀ fuel A,
      RandomFairAllocator.allocate σ fuel config judges projects = some (.ok A) →
      ∀ p ∈ projects, countContaining p A.allocations = config.judge_amount_min) := by
  constructor
  · obtain ⟨fuel, allocs', t', h⟩ :=
      RandomFairAllocator.allocProjects_fair_exists σ config.judge_amount_min
        judges.length hfair hk projects (judges.map fun judge => Allocation.mk judge [])
        0 (by simp) hdist
        (fun p _ => RandomFairAllocator.countContaining_initial judges p)
    refine ⟨fuel, ⟨allocs'⟩, ?_⟩
    rw [RandomFairAllocator.allocate_eq σ fuel config judges projects hj hp hk, h]
    rfl
  · intro fuel A hA p hpmem
    rw [RandomFairAllocator.allocate_eq σ fuel config judges projects hj hp hk] at hA
    cases hap : RandomFairAllocator.allocProjects σ config.judge_amount_min fuel
        projects (judges.map fun judge => Allocation.mk judge []) 0 with
    | none => rw [hap] at hA; exact absurd hA (by simp)
    | some r =>
      rw [hap] at hA
      simp only [Option.map_some', Option.some.injEq, Except.ok.injEq] at hA
      subst hA
      exact RandomFairAllocator.allocProjects_counts σ config.judge_amount_min fuel
        projects (judges.map fun judge => Allocation.mk judge []) 0 r.1 r.2
        (by rw [hap]) hdist
        (fun q _ => RandomFairAllocator.countContaining_initial judges q) p hpmem

/-- C1 (amended) witness: two judges, one project, `judge_amount_min = 1`,
identity stream. -/
theorem random_fair_counts_witness :
    (∃ fuel A,
      RandomFairAllocator.allocate (fun t => t) fuel ⟨1, 5, Format.Json, none⟩
        [⟨"1", "Judge 1"⟩, ⟨"2", "Judge 2"⟩] [⟨"p1", "P1", none⟩] = some (.ok A)) ∧
    (∀ fuel A,
      RandomFairAllocator.allocate (fun t => t) fuel ⟨1, 5, Format.Json, none⟩
        [⟨"1", "Judge 1"⟩, ⟨"2", "Judge 2"⟩] [⟨"p1", "P1", none⟩] = some (.ok A) →
      ∀ p ∈ [Project.mk "p1" "P1" none], countContaining p A.allocations = 1) :=
  random_fair_counts (fun t => t) ⟨1, 5, Format.Json, none⟩
    [⟨"1", "Judge 1"⟩, ⟨"2", "Judge 2"⟩] [⟨"p1", "P1", none⟩]
    (by decide) (by decide) (by decide) (by unfold PairwiseDistinct; decide)
    (fair_id 2)

/-- C3 counterexample: termination does not hold for *every* random stream.
With two judges, one project, `judge_amount_min = 2` (the precondition
`k ≤ judge_count` holds), the stream that always draws index `0` makes the
rejection-sampling loop retry forever: after judge 0 receives the project,
every further draw is rejected. -/
theorem random_termination_counterexample :
    ¬ RandomFairAllocator.Terminates (fun _ => 0) ⟨2, 5, Format.Json, none⟩
      [⟨"1", "Judge 1"⟩, ⟨"2", "Judge 2"⟩] [⟨"p1", "P1", none⟩] := by
  rintro ⟨fuel, r, h⟩
  rw [RandomFairAllocator.allocate_eq (fun _ => 0) fuel ⟨2, 5, Format.Json, none⟩ _ _
    (by decide) (by decide) (by decide)] at h
  cases fuel with
  | zero =>
    have h' : (none : Option (Except Error Allocations)) = some r := h
    exact absurd h' (by simp)
  | succ f =>
    have hstuck : RandomFairAllocator.drawLoop (fun _ => 0) ⟨"p1", "P1", none⟩ 2 f
        [⟨⟨"1", "Judge 1"⟩, [⟨"p1", "P1", none⟩]⟩, ⟨⟨"2", "Judge 2"⟩, []⟩] 1 1
        = none := by
      refine RandomFairAllocator.drawLoop_stuck (fun _ => 0) ⟨"p1", "P1", none⟩ 2 _
        f 1 1 (by omega) ?_
      intro u hu a ha
      have ha' : some (⟨⟨"1", "Judge 1"⟩, [⟨"p1", "P1", none⟩]⟩ : Allocation)
          = some a := ha
      injection ha' with ha'
      rw [← ha']
      decide
    have hdl : RandomFairAllocator.drawLoop (fun _ => 0) ⟨"p1", "P1", none⟩ 2 (f + 1)
        (([⟨"1", "Judge 1"⟩, ⟨"2", "Judge 2"⟩] : List Judge).map fun judge =>
          Allocation.mk judge []) 0 0 = none := by
      have hstep : RandomFairAllocator.drawLoop (fun _ => 0) ⟨"p1", "P1", none⟩ 2
          (f + 1)
          (([⟨"1", "Judge 1"⟩, ⟨"2", "Judge 2"⟩] : List Judge).map fun judge =>
            Allocation.mk judge []) 0 0
          = RandomFairAllocator.drawLoop (fun _ => 0) ⟨"p1", "P1", none⟩ 2 f
            [⟨⟨"1", "Judge 1"⟩, [⟨"p1", "P1", none⟩]⟩, ⟨⟨"2", "Judge 2"⟩, []⟩] 1 1 :=
        rfl
      rw [hstep, hstuck]
    rw [RandomFairAllocator.allocProjects, hdl] at h
    simp at h

/-- C3 (amended): the rejection-sampling loop terminates for every
rejection-sampling-safe (fair) stream when the projects are pairwise
distinct, the lists non-empty and `judge_amount_min ≤ judge_count`. -/
theorem random_fair_terminates (σ : Nat → Nat) (config : AllocationConfig)
    (judges : List Judge) (projects : List Project)
    (hj : judges ≠ []) (hp : projects ≠ [])
    (hk : config.judge_amount_min ≤ judges.length)
    (hdist : PairwiseDistinct projects) (hfair : Fair σ judges.length) :
    RandomFairAllocator.Terminates σ config judges projects := by
  obtain ⟨fuel, allocs', t', h⟩ :=
    RandomFairAllocator.allocProjects_fair_exists σ config.judge_amount_min
      judges.length hfair hk projects (judges.map fun judge => Allocation.mk judge [])
      0 (by simp) hdist
      (fun p _ => RandomFairAllocator.countContaining_initial judges p)
  refine ⟨fuel, .ok ⟨allocs'⟩, ?_⟩
  rw [RandomFairAllocator.allocate_eq σ fuel config judges projects hj hp hk, h]
  rfl

/-- C3 (amended) witness: two judges, `judge_amount_min = 2`, one project,
identity stream. -/
theorem random_fair_terminates_witness :
    RandomFairAllocator.Terminates (fun t => t) ⟨2, 5, Format.Json, none⟩
      [⟨"1", "Judge 1"⟩, ⟨"2", "Judge 2"⟩] [⟨"p1", "P1", none⟩] :=
  random_fair_terminates (fun t => t) ⟨2, 5, Format.Json, none⟩
    [⟨"1", "Judge 1"⟩, ⟨"2", "Judge 2"⟩] [⟨"p1", "P1", none⟩]
    (by decide) (by decide) (by decide) (by unfold PairwiseDistinct; decide)
    (fair_id 2)

/-- C5 counterexample: with one judge, `judge_amount_min = 1 ≤ 1`, and a
project listed twice, none of the three error conditions holds, yet
`RandomFairAllocator.allocate` never returns `Ok`: after the first copy is
placed, the only judge already holds the project and the sampling loop
retries forever. -/
theorem allocate_errors_counterexample :
    ¬ RandomFairAllocator.Terminates (fun _ => 0) ⟨1, 5, Format.Json, none⟩
      [⟨"1", "Judge 1"⟩] [⟨"p", "P", none⟩, ⟨"p", "P", none⟩] := by
  rintro ⟨fuel, r, h⟩
  rw [RandomFairAllocator.allocate_eq (fun _ => 0) fuel ⟨1, 5, Format.Json, none⟩ _ _
    (by decide) (by decide) (by decide)] at h
  cases fuel with
  | zero =>
    have h' : (none : Option (Except Error Allocations)) = some r := h
    exact absurd h' (by simp)
  | succ f =>
    have hd1 : RandomFairAllocator.drawLoop (fun _ => 0) ⟨"p", "P", none⟩ 1 (f + 1)
        (([⟨"1", "Judge 1"⟩] : List Judge).map fun judge => Allocation.mk judge [])
        0 0 = some ([⟨⟨"1", "Judge 1"⟩, [⟨"p", "P", none⟩]⟩], 1) := by
      have hstep : RandomFairAllocator.drawLoop (fun _ => 0) ⟨"p", "P", none⟩ 1
          (f + 1)
          (([⟨"1", "Judge 1"⟩] : List Judge).map fun judge => Allocation.mk judge [])
          0 0
          = RandomFairAllocator.drawLoop (fun _ => 0) ⟨"p", "P", none⟩ 1 f
            [⟨⟨"1", "Judge 1"⟩, [⟨"p", "P", none⟩]⟩] 1 1 := rfl
      rw [hstep, RandomFairAllocator.drawLoop_done _ _ _ _ _ _ _ (by omega)]
    have hstuck : RandomFairAllocator.drawLoop (fun _ => 0) ⟨"p", "P", none⟩ 1 (f + 1)
        [⟨⟨"1", "Judge 1"⟩, [⟨"p", "P", none⟩]⟩] 0 1 = none := by
      refine RandomFairAllocator.drawLoop_stuck (fun _ => 0) ⟨"p", "P", none⟩ 1 _
        (f + 1) 0 1 (by omega) ?_
      intro u hu a ha
      have ha' : some (⟨⟨"1", "Judge 1"⟩, [⟨"p", "P", none⟩]⟩ : Allocation)
          = some a := ha
      injection ha' with ha'
      rw [← ha']
      decide
    rw [RandomFairAllocator.allocProjects, hd1, Option.some_bind] at h
    rw [RandomFairAllocator.allocProjects] at h
    rw [hstuck] at h
    simp at h

/-- C5 (amended): both allocators fail with `ErrNoJudges` on an empty judges
list, with `ErrNoProjects` on non-empty judges and empty projects, and with
`ErrNotEnoughJudges{judge_count, project_count, judge_amount_min}` when both
lists are non-empty and `judge_amount_min` exceeds the judge count.  In all
other cases SequenceFair returns `Ok`, and RandomFair returns `Ok` provided
additionally that the projects are pairwise distinct and the stream is
rejection-sampling safe (fair); with duplicate projects or an unfair stream
its sampling loop may never return. -/
theorem allocate_errors_spec (σ : Nat → Nat) (config : AllocationConfig)
    (judges : List Judge) (projects : List Project) :
    (judges = [] → ∀ fuel,
      RandomFairAllocator.allocate σ fuel config judges projects
          = some (.error .ErrNoJudges) ∧
      SequenceFairAllocator.allocate config judges projects = .error .ErrNoJudges) ∧
    (judges ≠ [] → projects = [] → ∀ fuel,
      RandomFairAllocator.allocate σ fuel config judges projects
          = some (.error .ErrNoProjects) ∧
      SequenceFairAllocator.allocate config judges projects = .error .ErrNoProjects) ∧
    (judges ≠ [] → projects ≠ [] → judges.length < config.judge_amount_min →
      ∀ fuel,
      RandomFairAllocator.allocate σ fuel config judges projects
          = some (.error (.ErrNotEnoughJudges judges.length projects.length
              config.judge_amount_min)) ∧
      SequenceFairAllocator.allocate config judges projects
          = .error (.ErrNotEnoughJudges judges.length projects.length
              config.judge_amount_min)) ∧
    (judges ≠ [] → projects ≠ [] → config.judge_amount_min ≤ judges.length →
      (∃ A, SequenceFairAllocator.allocate config judges projects = .ok A) ∧
      (PairwiseDistinct projects → Fair σ judges.length →
        ∃ fuel A, RandomFairAllocator.allocate σ fuel config judges projects
          = some (.ok A))) := by
  refine ⟨?_, ?_, ?_, ?_⟩
  · intro hj fuel
    subst hj
    exact ⟨rfl, rfl⟩
  · intro hj hp fuel
    subst hp
    constructor
    · rw [RandomFairAllocator.allocate, if_neg (by simp [List.isEmpty_iff, hj])]
      rfl
    · rw [SequenceFairAllocator.allocate, if_neg (by simp [List.isEmpty_iff, hj])]
      rfl
  · intro hj hp hlt fuel
    constructor
    · rw [RandomFairAllocator.allocate, if_neg (by simp [List.isEmpty_iff, hj]),
        if_neg (by simp [List.isEmpty_iff, hp])]
      show (if judges.length < config.judge_amount_min then
          some (Except.error (Error.ErrNotEnoughJudges judges.length projects.length
            config.judge_amount_min))
        else
          (RandomFairAllocator.allocProjects σ config.judge_amount_min fuel projects
            (judges.map fun judge => Allocation.mk judge []) 0).map
              fun r => (Except.ok ⟨r.1⟩ : Except Error Allocations)) = _
      rw [if_pos hlt]
    · rw [SequenceFairAllocator.allocate, if_neg (by simp [List.isEmpty_iff, hj]),
        if_neg (by simp [List.isEmpty_iff, hp]), if_pos hlt]
  · intro hj hp hk
    constructor
    · exact ⟨_, seq_allocate_ok_eq config judges projects hj hp hk⟩
    · intro hdist hfair
      obtain ⟨fuel, allocs', t', h⟩ :=
        RandomFairAllocator.allocProjects_fair_exists σ config.judge_amount_min
          judges.length hfair hk projects
          (judges.map fun judge => Allocation.mk judge []) 0 (by simp) hdist
          (fun p _ => RandomFairAllocator.countContaining_initial judges p)
      refine ⟨fuel, ⟨allocs'⟩, ?_⟩
      rw [RandomFairAllocator.allocate_eq σ fuel config judges projects hj hp hk, h]
      rfl

/-- C5 (amended) witness: the four cases instantiated at concrete inputs. -/
theorem allocate_errors_spec_witness :
    (RandomFairAllocator.allocate (fun t => t) 0 ⟨3, 5, Format.Json, none⟩ []
        [⟨"p", "P", none⟩] = some (.error .ErrNoJudges) ∧
      SequenceFairAllocator.allocate ⟨3, 5, Format.Json, none⟩ [] [⟨"p", "P", none⟩]
        = .error .ErrNoJudges) ∧
    (RandomFairAllocator.allocate (fun t => t) 0 ⟨3, 5, Format.Json, none⟩
        [⟨"1", "Judge 1"⟩] [] = some (.error .ErrNoProjects) ∧
      SequenceFairAllocator.allocate ⟨3, 5, Format.Json, none⟩ [⟨"1", "Judge 1"⟩] []
        = .error .ErrNoProjects) ∧
    (RandomFairAllocator.allocate (fun t => t) 0 ⟨3, 5, Format.Json, none⟩
        [⟨"1", "Judge 1"⟩] [⟨"p", "P", none⟩]
        = some (.error (.ErrNotEnoughJudges 1 1 3)) ∧
      SequenceFairAllocator.allocate ⟨3, 5, Format.Json, none⟩ [⟨"1", "Judge 1"⟩]
        [⟨"p", "P", none⟩] = .error (.ErrNotEnoughJudges 1 1 3)) ∧
    ((∃ A, SequenceFairAllocator.allocate ⟨1, 5, Format.Json, none⟩
        [⟨"1", "Judge 1"⟩] [⟨"p", "P", none⟩] = .ok A) ∧
      (∃ fuel A, RandomFairAllocator.allocate (fun t => t) fuel
        ⟨1, 5, Format.Json, none⟩ [⟨"1", "Judge 1"⟩] [⟨"p", "P", none⟩]
        = some (.ok A))) := by
  refine ⟨?_, ?_, ?_, ?_, ?_⟩
  · exact (allocate_errors_spec (fun t => t) ⟨3, 5, Format.Json, none⟩ []
      [⟨"p", "P", none⟩]).1 rfl 0
  · exact (allocate_errors_spec (fun t => t) ⟨3, 5, Format.Json, none⟩
      [⟨"1", "Judge 1"⟩] []).2.1 (by decide) rfl 0
  · exact (allocate_errors_spec (fun t => t) ⟨3, 5, Format.Json, none⟩
      [⟨"1", "Judge 1"⟩] [⟨"p", "P", none⟩]).2.2.1 (by decide) (by decide) (by decide) 0
  · exact ((allocate_errors_spec (fun t => t) ⟨1, 5, Format.Json, none⟩
      [⟨"1", "Judge 1"⟩] [⟨"p", "P", none⟩]).2.2.2 (by decide) (by decide)
        (by decide)).1
  · exact ((allocate_errors_spec (fun t => t) ⟨1, 5, Format.Json, none⟩
      [⟨"1", "Judge 1"⟩] [⟨"p", "P", none⟩]).2.2.2 (by decide) (by decide)
        (by decide)).2 (by unfold PairwiseDistinct; decide) (fair_id 1)

/-- In `Average` mode, `to_scores` emits exactly the successful
`get_average_score` lookups, in project order. -/
theorem to_scores_average (t : ScoreTable) (projects : List Project)
    (fmt : Format) (ord : Order) :
    (t.to_scores projects ⟨fmt, ord, Mode.Average⟩).scores
      = projects.filterMap fun p =>
          (t.get_average_score p.name).map fun avg => Score.mk p.name avg := by
  rw [ScoreTable.to_scores]
  have hbody : (fun (scores_vec : List Score) (project : Project) =>
      if (⟨fmt, ord, Mode.Average⟩ : ScorerConfig).mode = Mode.Average then
        scores_vec ++ ((t.get_average_score project.name).map
          fun avg_score => Score.mk project.name avg_score).toList
      else
        scores_vec ++ ((t.get_total_score project.name).map
          fun total_score => Score.mk project.name total_score).toList)
      = fun scores_vec project =>
        scores_vec ++ ((t.get_average_score project.name).map
          fun avg_score => Score.mk project.name avg_score).toList := by
    funext acc p
    simp
  rw [hbody, foldl_push_eq_filterMap
    (fun p => (t.get_average_score p.name).map fun avg => Score.mk p.name avg)
    projects []]
  simp

/-- In any other mode, `to_scores` emits exactly the successful
`get_total_score` lookups, in project order. -/
theorem to_scores_total (t : ScoreTable) (projects : List Project)
    (fmt : Format) (ord : Order) (m : Mode) (hm : m ≠ Mode.Average) :
    (t.to_scores projects ⟨fmt, ord, m⟩).scores
      = projects.filterMap fun p =>
          (t.get_total_score p.name).map fun tot => Score.mk p.name tot := by
  rw [ScoreTable.to_scores]
  have hbody : (fun (scores_vec : List Score) (project : Project) =>
      if (⟨fmt, ord, m⟩ : ScorerConfig).mode = Mode.Average then
        scores_vec ++ ((t.get_average_score project.name).map
          fun avg_score => Score.mk project.name avg_score).toList
      else
        scores_vec ++ ((t.get_total_score project.name).map
          fun total_score => Score.mk project.name total_score).toList)
      = fun scores_vec project =>
        scores_vec ++ ((t.get_total_score project.name).map
          fun total_score => Score.mk project.name total_score).toList := by
    funext acc p
    simp [hm]
  rw [hbody, foldl_push_eq_filterMap
    (fun p => (t.get_total_score p.name).map fun tot => Score.mk p.name tot)
    projects []]
  simp

/-- C4: `to_scores(projects, config)` iterates the supplied project list in
order; in `Average` mode it emits `(name, average)` exactly for the projects
with at least one contribution in the table, omitting projects with zero
contributions rather than scoring them 0; in any other mode (`Total`) it
emits the project's total.  The hypothesis that every stored entry has a
positive count holds for every table the engine builds (`add` always
increments the count). -/
theorem to_scores_spec (t : ScoreTable) (projects : List Project)
    (fmt : Format) (ord : Order) (m : Mode)
    (hpos : ∀ e ∈ t.scores, 0 < e.2.2) :
    (m = Mode.Average →
      (t.to_scores projects ⟨fmt, ord, m⟩).scores
        = projects.filterMap fun p =>
            if 0 < ((t.get p.name).map fun e => e.2).getD 0 then
              some (Score.mk p.name ((t.get_average_score p.name).getD 0))
            else none) ∧
    (m ≠ Mode.Average →
      (t.to_scores projects ⟨fmt, ord, m⟩).scores
        = projects.filterMap fun p =>
            (t.get_total_score p.name).map fun tot => Score.mk p.name tot) := by
  constructor
  · intro hm
    subst hm
    rw [to_scores_average]
    refine List.filterMap_congr ?_
    intro p _
    cases hget : t.get p.name with
    | none => simp [ScoreTable.get_average_score, hget]
    | some e =>
      have hepos : 0 < e.2 := by
        rcases Option.map_eq_some'.mp hget with ⟨x, hfind, hx⟩
        have hxmem := List.mem_of_find?_eq_some hfind
        have := hpos x hxmem
        rw [hx] at this
        exact this
      simp [ScoreTable.get_average_score, hget, hepos]
  · intro hm
    exact to_scores_total t projects fmt ord m hm

/-- C4 witness: a table where project name "A" has two contributions and "B"
none; instantiated in `Average` mode. -/
theorem to_scores_spec_witness :
    ((Mode.Average = Mode.Average →
      ((⟨[("A", (3, 2))]⟩ : ScoreTable).to_scores
          [⟨"x", "A", none⟩, ⟨"y", "B", none⟩]
          ⟨Format.Json, Order.ScoreDesc, Mode.Average⟩).scores
        = [Project.mk "x" "A" none, Project.mk "y" "B" none].filterMap fun p =>
            if 0 < (((⟨[("A", (3, 2))]⟩ : ScoreTable).get p.name).map
                fun e => e.2).getD 0 then
              some (Score.mk p.name
                (((⟨[("A", (3, 2))]⟩ : ScoreTable).get_average_score p.name).getD 0))
            else none) ∧
    (Mode.Average ≠ Mode.Average →
      ((⟨[("A", (3, 2))]⟩ : ScoreTable).to_scores
          [⟨"x", "A", none⟩, ⟨"y", "B", none⟩]
          ⟨Format.Json, Order.ScoreDesc, Mode.Average⟩).scores
        = [Project.mk "x" "A" none, Project.mk "y" "B" none].filterMap fun p =>
            ((⟨[("A", (3, 2))]⟩ : ScoreTable).get_total_score p.name).map
              fun tot => Score.mk p.name tot)) :=
  to_scores_spec ⟨[("A", (3, 2))]⟩ [⟨"x", "A", none⟩, ⟨"y", "B", none⟩]
    Format.Json Order.ScoreDesc Mode.Average (by decide)

/-- `score` reduction under `ScoreAsc`. -/
theorem score_eq_asc (s : StackRankScorer) (hw : s.rank_weights ≠ [])
    (hp : s.projects ≠ []) (h : s.config.order = Order.ScoreAsc) :
    s.score = .ok ⟨((StackRankScorer.buildTable s.rank_weights
        s.judge_stack_decisions).to_scores s.projects s.config).scores.mergeSort
      fun a b => decide (a.score ≤ b.score)⟩ := by
  rw [StackRankScorer.score, if_neg (by simp [List.isEmpty_iff, hw]),
    if_neg (by simp [List.isEmpty_iff, hp])]
  simp only [h]

/-- `score` reduction under `ScoreDesc`. -/
theorem score_eq_desc (s : StackRankScorer) (hw : s.rank_weights ≠ [])
    (hp : s.projects ≠ []) (h : s.config.order = Order.ScoreDesc) :
    s.score = .ok ⟨((StackRankScorer.buildTable s.rank_weights
        s.judge_stack_decisions).to_scores s.projects s.config).scores.mergeSort
      fun a b => decide (b.score ≤ a.score)⟩ := by
  rw [StackRankScorer.score, if_neg (by simp [List.isEmpty_iff, hw]),
    if_neg (by simp [List.isEmpty_iff, hp])]
  simp only [h]

/-- `score` reduction under `ProjectNameAsc`. -/
theorem score_eq_nameAsc (s : StackRankScorer) (hw : s.rank_weights ≠ [])
    (hp : s.projects ≠ []) (h : s.config.order = Order.ProjectNameAsc) :
    s.score = .ok ⟨((StackRankScorer.buildTable s.rank_weights
        s.judge_stack_decisions).to_scores s.projects s.config).scores.mergeSort
      fun a b => decide (a.project_name ≤ b.project_name)⟩ := by
  rw [StackRankScorer.score, if_neg (by simp [List.isEmpty_iff, hw]),
    if_neg (by simp [List.isEmpty_iff, hp])]
  simp only [h]

/-- `score` reduction under `ProjectNameDesc`. -/
theorem score_eq_nameDesc (s : StackRankScorer) (hw : s.rank_weights ≠ [])
    (hp : s.projects ≠ []) (h : s.config.order = Order.ProjectNameDesc) :
    s.score = .ok ⟨((StackRankScorer.buildTable s.rank_weights
        s.judge_stack_decisions).to_scores s.projects s.config).scores.mergeSort
      fun a b => decide (b.project_name ≤ a.project_name)⟩ := by
  rw [StackRankScorer.score, if_neg (by simp [List.isEmpty_iff, hw]),
    if_neg (by simp [List.isEmpty_iff, hp])]
  simp only [h]

/-- C7: For every scorer input (scores modelled as exact rationals, so the
spec's no-NaN precondition holds and `partial_cmp` never fails),
`score()` with `ScoreDesc` returns `Ok(scores)` with
`s_i.score ≥ s_{i+1}.score` for all adjacent pairs; `ScoreAsc` sorts
ascending; `ProjectNameAsc`/`ProjectNameDesc` sort lexicographically on
`project_name`. -/
theorem score_sorted (s : StackRankScorer) (hw : s.rank_weights ≠ [])
    (hp : s.projects ≠ []) :
    (s.config.order = Order.ScoreDesc → ∃ sc, s.score = .ok sc ∧
      sc.scores.Chain' fun a b => b.score ≤ a.score) ∧
    (s.config.order = Order.ScoreAsc → ∃ sc, s.score = .ok sc ∧
      sc.scores.Chain' fun a b => a.score ≤ b.score) ∧
    (s.config.order = Order.ProjectNameAsc → ∃ sc, s.score = .ok sc ∧
      sc.scores.Chain' fun a b => a.project_name ≤ b.project_name) ∧
    (s.config.order = Order.ProjectNameDesc → ∃ sc, s.score = .ok sc ∧
      sc.scores.Chain' fun a b => b.project_name ≤ a.project_name) := by
  refine ⟨?_, ?_, ?_, ?_⟩ <;> intro h
  · refine ⟨_, score_eq_desc s hw hp h, ?_⟩
    have hs := @List.sorted_mergeSort Score
      (fun a b : Score => decide (b.score ≤ a.score))
      (fun a b c hab hbc => by
        simp only [decide_eq_true_eq] at hab hbc ⊢
        exact le_trans hbc hab)
      (fun a b => by
        simp only [Bool.or_eq_true, decide_eq_true_eq]
        exact le_total b.score a.score)
      ((StackRankScorer.buildTable s.rank_weights
        s.judge_stack_decisions).to_scores s.projects s.config).scores
    exact (hs.imp fun hab => by simpa using hab).chain'
  · refine ⟨_, score_eq_asc s hw hp h, ?_⟩
    have hs := @List.sorted_mergeSort Score
      (fun a b : Score => decide (a.score ≤ b.score))
      (fun a b c hab hbc => by
        simp only [decide_eq_true_eq] at hab hbc ⊢
        exact le_trans hab hbc)
      (fun a b => by
        simp only [Bool.or_eq_true, decide_eq_true_eq]
        exact le_total a.score b.score)
      ((StackRankScorer.buildTable s.rank_weights
        s.judge_stack_decisions).to_scores s.projects s.config).scores
    exact (hs.imp fun hab => by simpa using hab).chain'
  · refine ⟨_, score_eq_nameAsc s hw hp h, ?_⟩
    have hs := @List.sorted_mergeSort Score
      (fun a b : Score => decide (a.project_name ≤ b.project_name))
      (fun a b c hab hbc => by
        simp only [decide_eq_true_eq] at hab hbc ⊢
        exact le_trans hab hbc)
      (fun a b => by
        simp only [Bool.or_eq_true, decide_eq_true_eq]
        exact le_total a.project_name b.project_name)
      ((StackRankScorer.buildTable s.rank_weights
        s.judge_stack_decisions).to_scores s.projects s.config).scores
    exact (hs.imp fun hab => by simpa using hab).chain'
  · refine ⟨_, score_eq_nameDesc s hw hp h, ?_⟩
    have hs := @List.sorted_mergeSort Score
      (fun a b : Score => decide (b.project_name ≤ a.project_name))
      (fun a b c hab hbc => by
        simp only [decide_eq_true_eq] at hab hbc ⊢
        exact le_trans hbc hab)
      (fun a b => by
        simp only [Bool.or_eq_true, decide_eq_true_eq]
        exact le_total b.project_name a.project_name)
      ((StackRankScorer.buildTable s.rank_weights
        s.judge_stack_decisions).to_scores s.projects s.config).scores
    exact (hs.imp fun hab => by simpa using hab).chain'

/-- C7 witness: a concrete scorer with two decisions and `ScoreDesc`. -/
theorem score_sorted_witness :
    ((⟨⟨Format.Json, Order.ScoreDesc, Mode.Average⟩,
        [⟨"1", [("project a", 1), ("project b", 2)]⟩,
         ⟨"2", [("project b", 1), ("project a", 2)]⟩],
        [⟨"a", "project a", none⟩, ⟨"b", "project b", none⟩],
        [(1, 3), (2, 2)]⟩ : StackRankScorer).config.order = Order.ScoreDesc →
      ∃ sc, StackRankScorer.score ⟨⟨Format.Json, Order.ScoreDesc, Mode.Average⟩,
        [⟨"1", [("project a", 1), ("project b", 2)]⟩,
         ⟨"2", [("project b", 1), ("project a", 2)]⟩],
        [⟨"a", "project a", none⟩, ⟨"b", "project b", none⟩],
        [(1, 3), (2, 2)]⟩ = .ok sc ∧
        sc.scores.Chain' fun a b => b.score ≤ a.score) ∧
    ((⟨⟨Format.Json, Order.ScoreDesc, Mode.Average⟩,
        [⟨"1", [("project a", 1), ("project b", 2)]⟩,
         ⟨"2", [("project b", 1), ("project a", 2)]⟩],
        [⟨"a", "project a", none⟩, ⟨"b", "project b", none⟩],
        [(1, 3), (2, 2)]⟩ : StackRankScorer).config.order = Order.ScoreAsc →
      ∃ sc, StackRankScorer.score ⟨⟨Format.Json, Order.ScoreDesc, Mode.Average⟩,
        [⟨"1", [("project a", 1), ("project b", 2)]⟩,
         ⟨"2", [("project b", 1), ("project a", 2)]⟩],
        [⟨"a", "project a", none⟩, ⟨"b", "project b", none⟩],
        [(1, 3), (2, 2)]⟩ = .ok sc ∧
        sc.scores.Chain' fun a b => a.score ≤ b.score) ∧
    ((⟨⟨Format.Json, Order.ScoreDesc, Mode.Average⟩,
        [⟨"1", [("project a", 1), ("project b", 2)]⟩,
         ⟨"2", [("project b", 1), ("project a", 2)]⟩],
        [⟨"a", "project a", none⟩, ⟨"b", "project b", none⟩],
        [(1, 3), (2, 2)]⟩ : StackRankScorer).config.order = Order.ProjectNameAsc →
      ∃ sc, StackRankScorer.score ⟨⟨Format.Json, Order.ScoreDesc, Mode.Average⟩,
        [⟨"1", [("project a", 1), ("project b", 2)]⟩,
         ⟨"2", [("project b", 1), ("project a", 2)]⟩],
        [⟨"a", "project a", none⟩, ⟨"b", "project b", none⟩],
        [(1, 3), (2, 2)]⟩ = .ok sc ∧
        sc.scores.Chain' fun a b => a.project_name ≤ b.project_name) ∧
    ((⟨⟨Format.Json, Order.ScoreDesc, Mode.Average⟩,
        [⟨"1", [("project a", 1), ("project b", 2)]⟩,
         ⟨"2", [("project b", 1), ("project a", 2)]⟩],
        [⟨"a", "project a", none⟩, ⟨"b", "project b", none⟩],
        [(1, 3), (2, 2)]⟩ : StackRankScorer).config.order = Order.ProjectNameDesc →
      ∃ sc, StackRankScorer.score ⟨⟨Format.Json, Order.ScoreDesc, Mode.Average⟩,
        [⟨"1", [("project a", 1), ("project b", 2)]⟩,
         ⟨"2", [("project b", 1), ("project a", 2)]⟩],
        [⟨"a", "project a", none⟩, ⟨"b", "project b", none⟩],
        [(1, 3), (2, 2)]⟩ = .ok sc ∧
        sc.scores.Chain' fun a b => b.project_name ≤ a.project_name) :=
  score_sorted ⟨⟨Format.Json, Order.ScoreDesc, Mode.Average⟩,
    [⟨"1", [("project a", 1), ("project b", 2)]⟩,
     ⟨"2", [("project b", 1), ("project a", 2)]⟩],
    [⟨"a", "project a", none⟩, ⟨"b", "project b", none⟩],
    [(1, 3), (2, 2)]⟩ (by decide) (by decide)

/-- An unmapped rank leaves the score table untouched. -/
theorem addPair_unmapped (w : List (Nat × Rat)) (results : ScoreTable)
    (pr : String × Nat) (h : StackRankScorer.weightsGet w pr.2 = none) :
    StackRankScorer.addPair w results pr = results := by
  unfold StackRankScorer.addPair
  rw [h]

/-- Dropping the unmapped pairs from a decision does not change the
accumulated table. -/
theorem foldl_addPair_filter (w : List (Nat × Rat)) :
    ∀ (ranks : List (String × Nat)) (results : ScoreTable),
      (ranks.filter fun pr => (StackRankScorer.weightsGet w pr.2).isSome).foldl
          (StackRankScorer.addPair w) results
        = ranks.foldl (StackRankScorer.addPair w) results := by
  intro ranks
  induction ranks with
  | nil => intro results; rfl
  | cons pr ranks ih =>
    intro results
    cases hwg : StackRankScorer.weightsGet w pr.2 with
    | none =>
      rw [List.filter_cons_of_neg (by simp [hwg]), List.foldl_cons,
        addPair_unmapped w results pr hwg]
      exact ih results
    | some v =>
      rw [List.filter_cons_of_pos (by simp [hwg]), List.foldl_cons, List.foldl_cons]
      exact ih _

/-- Dropping the unmapped pairs from every decision does not change the
accumulated table. -/
theorem buildTable_filterMapped (w : List (Nat × Rat))
    (decisions : List StackRankDecision) :
    StackRankScorer.buildTable w (decisions.map fun d =>
        ⟨d.judge_id, d.ranks.filter fun pr =>
          (StackRankScorer.weightsGet w pr.2).isSome⟩)
      = StackRankScorer.buildTable w decisions := by
  rw [StackRankScorer.buildTable, StackRankScorer.buildTable, List.foldl_map]
  have hstep : (fun (results : ScoreTable) (d : StackRankDecision) =>
      ((⟨d.judge_id, d.ranks.filter fun pr =>
          (StackRankScorer.weightsGet w pr.2).isSome⟩ : StackRankDecision).ranks.foldl
        (StackRankScorer.addPair w) results))
      = fun results d => d.ranks.foldl (StackRankScorer.addPair w) results := by
    funext results d
    exact foldl_addPair_filter w d.ranks results
  rw [hstep]

/-- C8: With non-empty rank weights and non-empty projects, `score()` still
returns `Ok`, and every `(project, rank)` pair whose rank has no entry in
the weight mapping contributes nothing: the result is identical to scoring
with all unmapped pairs removed, and no error is produced for them. -/
theorem score_drops_unmapped (s : StackRankScorer)
    (hw : s.rank_weights ≠ []) (hp : s.projects ≠ []) :
    (∃ sc, s.score = .ok sc) ∧ s.score = s.filterMapped.score := by
  have htbl : StackRankScorer.buildTable s.filterMapped.rank_weights
      s.filterMapped.judge_stack_decisions
      = StackRankScorer.buildTable s.rank_weights s.judge_stack_decisions :=
    buildTable_filterMapped s.rank_weights s.judge_stack_decisions
  constructor
  · cases horder : s.config.order with
    | ScoreAsc => exact ⟨_, score_eq_asc s hw hp horder⟩
    | ScoreDesc => exact ⟨_, score_eq_desc s hw hp horder⟩
    | ProjectNameAsc => exact ⟨_, score_eq_nameAsc s hw hp horder⟩
    | ProjectNameDesc => exact ⟨_, score_eq_nameDesc s hw hp horder⟩
  · cases horder : s.config.order with
    | ScoreAsc =>
      rw [score_eq_asc s hw hp horder, score_eq_asc s.filterMapped hw hp horder, htbl]
      rfl
    | ScoreDesc =>
      rw [score_eq_desc s hw hp horder, score_eq_desc s.filterMapped hw hp horder,
        htbl]
      rfl
    | ProjectNameAsc =>
      rw [score_eq_nameAsc s hw hp horder,
        score_eq_nameAsc s.filterMapped hw hp horder, htbl]
      rfl
    | ProjectNameDesc =>
      rw [score_eq_nameDesc s hw hp horder,
        score_eq_nameDesc s.filterMapped hw hp horder, htbl]
      rfl

/-- C8 witness: one decision ranking "project a" at mapped rank 1 and
"project b" at unmapped rank 99. -/
theorem score_drops_unmapped_witness :
    (∃ sc, StackRankScorer.score ⟨⟨Format.Json, Order.ScoreDesc, Mode.Average⟩,
        [⟨"1", [("project a", 1), ("project b", 99)]⟩],
        [⟨"a", "project a", none⟩, ⟨"b", "project b", none⟩],
        [(1, 3)]⟩ = .ok sc) ∧
    StackRankScorer.score ⟨⟨Format.Json, Order.ScoreDesc, Mode.Average⟩,
        [⟨"1", [("project a", 1), ("project b", 99)]⟩],
        [⟨"a", "project a", none⟩, ⟨"b", "project b", none⟩],
        [(1, 3)]⟩
      = StackRankScorer.score (StackRankScorer.filterMapped
        ⟨⟨Format.Json, Order.ScoreDesc, Mode.Average⟩,
          [⟨"1", [("project a", 1), ("project b", 99)]⟩],
          [⟨"a", "project a", none⟩, ⟨"b", "project b", none⟩],
          [(1, 3)]⟩) :=
  score_drops_unmapped ⟨⟨Format.Json, Order.ScoreDesc, Mode.Average⟩,
    [⟨"1", [("project a", 1), ("project b", 99)]⟩],
    [⟨"a", "project a", none⟩, ⟨"b", "project b", none⟩],
    [(1, 3)]⟩ (by decide) (by decide)
